import Mathlib

/-!
Verification of the token/MIDI codec in `src/midi_processing.py` of the
jazzgpt repository.  The Python functions `extract_tokens_with_granularity`,
`generate_midi_from_tokens`, `trim_and_convert_nones` and
`replace_neg1_with_none` are embedded shallowly: tracks are lists of
messages, the Python `dict` of active notes is an insertion-ordered
association list, Python integer division is `Int.fdiv`, and the runtime
errors the code can raise (`ZeroDivisionError` from `//`, `ValueError` from
a zero `range` step) are surfaced via `Except`.
-/

namespace JazzMidi

/-- The kind of a MIDI message: note-on, note-off, or any other (ignored) type. -/
inductive MsgType
  | note_on
  | note_off
  | other
deriving DecidableEq, Repr

/-- A MIDI message as mido exposes it: a type, a note number, a velocity and a
delta time (`msg.time`, ticks since the previous message of the track). -/
structure Msg where
  type : MsgType
  note : Int
  velocity : Int
  time : Int
deriving DecidableEq, Repr

/-- Python runtime errors reachable in the embedded functions:
`ticks_per_beat // 0` raises `ZeroDivisionError`, and
`range(a, b, 0)` raises `ValueError: range() arg 3 must not be zero`. -/
inductive PyError
  | zeroDivisionError
  | rangeStepZeroError
deriving DecidableEq, Repr

/-- `d[k] = v` on a Python dict represented as an insertion-ordered association
list: an existing key keeps its position and gets the new value, a new key is
appended at the end. -/
def dictInsert : List (Int × Int) → Int → Int → List (Int × Int)
  | [], k, v => [(k, v)]
  | (k2, v2) :: rest, k, v =>
      if k2 = k then (k, v) :: rest else (k2, v2) :: dictInsert rest k v

/-- `d.pop(k, None)` on a Python dict: drop the entry with key `k` if present. -/
def dictPop : List (Int × Int) → Int → List (Int × Int)
  | [], _ => []
  | (k2, v2) :: rest, k => if k2 = k then rest else (k2, v2) :: dictPop rest k

/-- `max(active_notes.keys())` for a non-empty dict, `none` for the empty dict
(line 182-187 of midi_processing.py: an empty dict yields the rest token). -/
def maxKeys : List (Int × Int) → Option Int
  | [] => none
  | (k, _) :: rest => some (rest.foldl (fun m p => max m p.1) k)

/-- One iteration of the event-application loop body of
`extract_tokens_with_granularity` (lines 170-179): a `note_on` with positive
velocity records the note, a `note_on` with velocity 0 or a `note_off`
removes it, anything else is ignored. -/
def applyEvent (active : List (Int × Int)) (ev : Int × Msg) : List (Int × Int) :=
  match ev.2.type with
  | .note_on =>
      if ev.2.velocity > 0 then dictInsert active ev.2.note ev.1
      else dictPop active ev.2.note
  | .note_off => dictPop active ev.2.note
  | .other => active

/-- Apply a list of timestamped events in order to the active-note dict. -/
def applyAll (active : List (Int × Int)) (evs : List (Int × Msg)) : List (Int × Int) :=
  evs.foldl applyEvent active

/-- The `while event_index < len(events) and events[event_index][0] <= t` loop
(lines 169-180): consume the leading run of events with time `≤ t`, returning
the remaining events and the updated active-note dict. -/
def processEvents (t : Int) :
    List (Int × Msg) → List (Int × Int) → List (Int × Msg) × List (Int × Int)
  | [], active => ([], active)
  | e :: rest, active =>
      if e.1 ≤ t then processEvents t rest (applyEvent active e)
      else (e :: rest, active)

/-- The absolute-time event list built at lines 153-157: a running prefix sum
of delta times starting from `current_time = c`. -/
def buildEvents (c : Int) : List Msg → List (Int × Msg)
  | [] => []
  | msg :: rest => (c + msg.time, msg) :: buildEvents (c + msg.time) rest

/-- Number of elements of Python `range(start, stop, step)`, for `step ≠ 0`. -/
def pyRangeLen (start stop step : Int) : Nat :=
  if 0 < step then ((stop - start + step - 1).fdiv step).toNat
  else ((stop - start + step + 1).fdiv step).toNat

/-- Python `range(start, stop, step)` as a list, for `step ≠ 0`. -/
def pyRange (start stop step : Int) : List Int :=
  (List.range (pyRangeLen start stop step)).map (fun i : Nat => start + step * (i : Int))

/-- The sampling loop of `extract_tokens_with_granularity` (lines 167-188):
for each sample time, consume the due events and emit the current token. -/
def quantLoop : List Int → List (Int × Msg) → List (Int × Int) → List (Option Int)
  | [], _, _ => []
  | t :: ts, evs, active =>
      let r := processEvents t evs active
      maxKeys r.2 :: quantLoop ts r.1 r.2

/-- `extract_tokens_with_granularity` (midi_processing.py lines 141-190).
`subdivision = 0` raises `ZeroDivisionError` at `ticks_per_beat // subdivision`;
a zero `step_size` makes `range(0, final_time + step_size, step_size)` raise
`ValueError`; otherwise the token grid is returned. -/
def extract_tokens_with_granularity (track : List Msg) (ticks_per_beat subdivision : Int) :
    Except PyError (List (Option Int)) :=
  if subdivision = 0 then .error .zeroDivisionError
  else
    let step_size := ticks_per_beat.fdiv subdivision
    let events := buildEvents 0 track
    let final_time := ((events.getLast?).map Prod.fst).getD 0
    if step_size = 0 then .error .rangeStepZeroError
    else .ok (quantLoop (pyRange 0 (final_time + step_size) step_size) events [])

/-- The messages emitted for one transition of `generate_midi_from_tokens`
(lines 60-87): a `note_off` for the previous token and/or a `note_on` for the
new one; the first emitted message carries the accumulated delta time, any
second one has delta 0.  `note_off` has velocity 0, `note_on` velocity 64. -/
def transMsgs (delta : Int) (previous_token token : Option Int) : List Msg :=
  match previous_token, token with
  | some p, some q => [⟨.note_off, p, 0, delta⟩, ⟨.note_on, q, 64, 0⟩]
  | some p, none => [⟨.note_off, p, 0, delta⟩]
  | none, some q => [⟨.note_on, q, 64, delta⟩]
  | none, none => []

/-- The main loop of `generate_midi_from_tokens` (lines 57-87), with loop
index `i`, returning the emitted messages together with the final
`current_time` and `previous_token`. -/
def genGo (step_size : Int) :
    Nat → Int → Option Int → List (Option Int) → List Msg × Int × Option Int
  | _, current_time, previous_token, [] => ([], current_time, previous_token)
  | i, current_time, previous_token, token :: rest =>
      if token = previous_token then genGo step_size (i + 1) current_time previous_token rest
      else
        let r := genGo step_size (i + 1) ((i : Int) * step_size) token rest
        (transMsgs ((i : Int) * step_size - current_time) previous_token token ++ r.1, r.2)

/-- `generate_midi_from_tokens` (lines 35-97), modelling the produced track
contents (file output is outside the embedding).  `subdivision = 0` raises
`ZeroDivisionError`; otherwise the loop runs and, if a note is still open at
the end, a final `note_off` at `len(tokens) * step_size - current_time` is
appended (lines 89-93). -/
def generate_midi_from_tokens (tokens : List (Option Int)) (ticks_per_beat subdivision : Int) :
    Except PyError (List Msg) :=
  if subdivision = 0 then .error .zeroDivisionError
  else
    let step_size := ticks_per_beat.fdiv subdivision
    let r := genGo step_size 0 0 none tokens
    .ok (r.1 ++
      match r.2.2 with
      | some p => [⟨.note_off, p, 0, (tokens.length : Int) * step_size - r.2.1⟩]
      | none => [])

/-- The `while first < len(tokens) and tokens[first] is None` loop
(lines 205-207): number of leading rests (equals the length when every token
is a rest). -/
def firstNonNone : List (Option Int) → Nat
  | [] => 0
  | none :: rest => firstNonNone rest + 1
  | some _ :: _ => 0

/-- The `while last >= 0 and tokens[last] is None` loop (lines 210-212):
index of the last non-rest token, `-1` when every token is a rest. -/
def lastNonNone (tokens : List (Option Int)) : Int :=
  (tokens.length : Int) - 1 - (firstNonNone tokens.reverse : Int)

/-- Python list slicing `l[a:b]`: negative indices count from the end, and
both bounds are clamped to the list. -/
def pySlice {α : Type} (l : List α) (a b : Int) : List α :=
  let n : Int := l.length
  let a2 := if a < 0 then max 0 (n + a) else min n a
  let b2 := if b < 0 then max 0 (n + b) else min n b
  (l.take b2.toNat).drop a2.toNat

/-- The sentinel encoding applied pointwise at line 229:
`x if x is not None else -1`. -/
def noneToNeg1 : Option Int → Int
  | some x => x
  | none => -1

/-- `trim_and_convert_nones` (lines 193-229).  The two early returns (empty
input, all-rest input) come before the division, so `subdivision = 0` raises
`ZeroDivisionError` exactly when the input has a non-rest token. -/
def trim_and_convert_nones (tokens : List (Option Int)) (subdivision : Int) :
    Except PyError (List Int) :=
  if tokens = [] then .ok []
  else
    let first : Int := firstNonNone tokens
    let last : Int := lastNonNone tokens
    if first > last then .ok []
    else if subdivision = 0 then .error .zeroDivisionError
    else
      let leading_remove := first.fdiv subdivision * subdivision
      let trailing_remove := ((tokens.length : Int) - last - 1).fdiv subdivision * subdivision
      let new_first := leading_remove
      let new_last := (tokens.length : Int) - trailing_remove - 1
      .ok ((pySlice tokens new_first (new_last + 1)).map noneToNeg1)

/-- `replace_neg1_with_none` (lines 232-234). -/
def replace_neg1_with_none (lst : List Int) : List (Option Int) :=
  lst.map (fun x => if x = -1 then none else some x)

/-- Total of the delta-time fields of a message list. -/
def sumTimes (l : List Msg) : Int := (l.map Msg.time).sum

/-- Spec side (§4.2 of the design): the active-note dict after applying every
event with absolute time `≤ t`, independently of the cursor mechanism. -/
def specActive (track : List Msg) (t : Int) : List (Int × Int) :=
  applyAll [] ((buildEvents 0 track).filter (fun e => decide (e.1 ≤ t)))

/-- Spec side (§4.2): the token for a sample step — the maximum pitch of the
active-note set when non-empty, the rest marker otherwise. -/
def specToken (active : List (Int × Int)) : Option Int :=
  (active.map Prod.fst).max?

/-! ### Generic list lemmas -/

theorem takeWhile_nil_of_all_false {α : Type} {p : α → Bool} {l : List α}
    (h : ∀ x ∈ l, p x = false) : l.takeWhile p = [] := by
  cases l with
  | nil => rfl
  | cons a l => simp [List.takeWhile_cons, h a (by simp)]

theorem dropWhile_dropWhile_of_imp {α : Type} {p q : α → Bool}
    (hpq : ∀ x, p x = true → q x = true) :
    ∀ l : List α, (l.dropWhile p).dropWhile q = l.dropWhile q := by
  intro l
  induction l with
  | nil => rfl
  | cons a l ih =>
      by_cases h : p a = true
      · rw [List.dropWhile_cons_of_pos h, ih, List.dropWhile_cons_of_pos (hpq a h)]
      · rw [List.dropWhile_cons_of_neg h]

theorem takeWhile_split_of_imp {α : Type} {p q : α → Bool}
    (hpq : ∀ x, p x = true → q x = true) :
    ∀ l : List α, l.takeWhile q = l.takeWhile p ++ (l.dropWhile p).takeWhile q := by
  intro l
  induction l with
  | nil => rfl
  | cons a l ih =>
      by_cases h : p a = true
      · rw [List.takeWhile_cons_of_pos h, List.dropWhile_cons_of_pos h,
          List.takeWhile_cons_of_pos (hpq a h), List.cons_append, ih]
      · rw [List.takeWhile_cons_of_neg h, List.dropWhile_cons_of_neg h, List.nil_append]

theorem takeWhile_eq_filter_of_sorted {α : Type} {q : α → Bool} :
    ∀ {l : List α}, l.Pairwise (fun a b => q b = true → q a = true) →
      l.takeWhile q = l.filter q := by
  intro l
  induction l with
  | nil => intro _; rfl
  | cons a l ih =>
      intro h
      rcases List.pairwise_cons.mp h with ⟨h1, h2⟩
      by_cases ha : q a = true
      · rw [List.takeWhile_cons_of_pos ha, List.filter_cons_of_pos ha, ih h2]
      · rw [List.takeWhile_cons_of_neg ha, List.filter_cons_of_neg ha]
        have hall : ∀ x ∈ l, ¬ q x = true := by
          intro x hx hqx
          exact ha (h1 x hx hqx)
        rw [List.filter_eq_nil_iff.mpr hall]

theorem takeWhile_append_of_all {α : Type} {p : α → Bool} {xs ys : List α}
    (h : ∀ x ∈ xs, p x = true) : (xs ++ ys).takeWhile p = xs ++ ys.takeWhile p := by
  induction xs with
  | nil => simp
  | cons a l ih =>
      rw [List.cons_append, List.takeWhile_cons_of_pos (h a (by simp)), List.cons_append,
        ih (fun x hx => h x (List.mem_cons_of_mem _ hx))]

theorem takeWhile_append_stop {α : Type} (p : α → Bool) (xs ys : List α) (y : α)
    (hy : ¬ p y = true) : (xs ++ y :: ys).takeWhile p = xs.takeWhile p := by
  induction xs with
  | nil => simp [List.takeWhile_cons, hy]
  | cons a l ih =>
      by_cases h : p a = true
      · rw [List.cons_append, List.takeWhile_cons_of_pos h, ih, List.takeWhile_cons_of_pos h]
      · rw [List.cons_append, List.takeWhile_cons_of_neg h, List.takeWhile_cons_of_neg h]

/-! ### The event cursor is takeWhile/dropWhile -/

theorem applyAll_append (a : List (Int × Int)) (xs ys : List (Int × Msg)) :
    applyAll a (xs ++ ys) = applyAll (applyAll a xs) ys := by
  simp [applyAll, List.foldl_append]

theorem processEvents_eq (t : Int) :
    ∀ (evs : List (Int × Msg)) (active : List (Int × Int)),
      processEvents t evs active =
        (evs.dropWhile (fun e => decide (e.1 ≤ t)),
         applyAll active (evs.takeWhile (fun e => decide (e.1 ≤ t)))) := by
  intro evs
  induction evs with
  | nil => intro active; rfl
  | cons e rest ih =>
      intro active
      by_cases h : e.1 ≤ t <;>
        simp [processEvents, h, ih, applyAll, List.dropWhile_cons, List.takeWhile_cons]

theorem quantLoop_spec (evs0 : List (Int × Msg)) :
    ∀ (ts : List Int) (s : Int), (s :: ts).Pairwise (· ≤ ·) →
      quantLoop ts (evs0.dropWhile (fun e => decide (e.1 ≤ s)))
          (applyAll [] (evs0.takeWhile (fun e => decide (e.1 ≤ s)))) =
        ts.map (fun t => maxKeys (applyAll [] (evs0.takeWhile (fun e => decide (e.1 ≤ t))))) := by
  intro ts
  induction ts with
  | nil => intro s _; rfl
  | cons t ts ih =>
      intro s hp
      rcases List.pairwise_cons.mp hp with ⟨h1, h2⟩
      have hst : s ≤ t := h1 t (by simp)
      have himp : ∀ e : Int × Msg, decide (e.1 ≤ s) = true → decide (e.1 ≤ t) = true := by
        intro e he
        simp only [decide_eq_true_eq] at he ⊢
        exact le_trans he hst
      simp only [quantLoop, processEvents_eq]
      rw [dropWhile_dropWhile_of_imp himp, ← applyAll_append,
        ← takeWhile_split_of_imp himp, List.map_cons]
      exact congrArg _ (ih t h2)

/-! ### buildEvents facts -/

theorem sumTimes_nil : sumTimes [] = 0 := rfl

theorem sumTimes_cons (m : Msg) (l : List Msg) : sumTimes (m :: l) = m.time + sumTimes l := by
  simp [sumTimes]

theorem sumTimes_nonneg : ∀ {l : List Msg}, (∀ m ∈ l, 0 ≤ m.time) → 0 ≤ sumTimes l := by
  intro l h
  induction l with
  | nil => simp [sumTimes]
  | cons m l ih =>
      rw [sumTimes_cons]
      have := h m (by simp)
      have := ih (fun x hx => h x (List.mem_cons_of_mem _ hx))
      omega

theorem buildEvents_append (xs : List Msg) :
    ∀ (ys : List Msg) (c : Int),
      buildEvents c (xs ++ ys) = buildEvents c xs ++ buildEvents (c + sumTimes xs) ys := by
  induction xs with
  | nil => intro ys c; simp [buildEvents, sumTimes]
  | cons m l ih =>
      intro ys c
      simp only [List.cons_append, buildEvents, List.append_eq]
      rw [ih, sumTimes_cons, ← Int.add_assoc]

theorem buildEvents_length (c : Int) (l : List Msg) : (buildEvents c l).length = l.length := by
  induction l generalizing c with
  | nil => rfl
  | cons m l ih => simp [buildEvents, ih]

theorem buildEvents_mem_msg : ∀ (l : List Msg) (c : Int) (e : Int × Msg),
    e ∈ buildEvents c l → e.2 ∈ l := by
  intro l
  induction l with
  | nil => intro c e h; simp [buildEvents] at h
  | cons m l ih =>
      intro c e h
      simp only [buildEvents, List.mem_cons] at h
      rcases h with h | h
      · subst h; simp
      · exact List.mem_cons_of_mem _ (ih _ e h)

theorem buildEvents_times_lb : ∀ (l : List Msg) (c : Int), (∀ m ∈ l, 0 ≤ m.time) →
    ∀ e ∈ buildEvents c l, c ≤ e.1 := by
  intro l
  induction l with
  | nil => intro c _ e h; simp [buildEvents] at h
  | cons m l ih =>
      intro c hd e h
      have hm : 0 ≤ m.time := hd m (by simp)
      simp only [buildEvents, List.mem_cons] at h
      rcases h with h | h
      · subst h; simpa using hm
      · have := ih (c + m.time) (fun x hx => hd x (List.mem_cons_of_mem _ hx)) e h
        omega

theorem buildEvents_times_ub : ∀ (l : List Msg) (c : Int), (∀ m ∈ l, 0 ≤ m.time) →
    ∀ e ∈ buildEvents c l, e.1 ≤ c + sumTimes l := by
  intro l
  induction l with
  | nil => intro c _ e h; simp [buildEvents] at h
  | cons m l ih =>
      intro c hd e h
      have hs : 0 ≤ sumTimes l := sumTimes_nonneg (fun x hx => hd x (List.mem_cons_of_mem _ hx))
      simp only [buildEvents, List.mem_cons] at h
      rcases h with h | h
      · subst h; rw [sumTimes_cons]; omega
      · have := ih (c + m.time) (fun x hx => hd x (List.mem_cons_of_mem _ hx)) e h
        rw [sumTimes_cons]; omega

theorem buildEvents_sorted : ∀ (l : List Msg) (c : Int), (∀ m ∈ l, 0 ≤ m.time) →
    (buildEvents c l).Pairwise (fun a b => a.1 ≤ b.1) := by
  intro l
  induction l with
  | nil => intro c _; simp [buildEvents]
  | cons m l ih =>
      intro c hd
      rw [buildEvents, List.pairwise_cons]
      refine ⟨?_, ih (c + m.time) (fun x hx => hd x (List.mem_cons_of_mem _ hx))⟩
      intro e he
      exact buildEvents_times_lb l (c + m.time)
        (fun x hx => hd x (List.mem_cons_of_mem _ hx)) e he

/-! ### pyRange facts -/

theorem fdiv_pos_of_le {a b : Int} (hb : 0 < b) (hba : b ≤ a) : 0 < a.fdiv b := by
  rw [Int.fdiv_eq_ediv _ (le_of_lt hb)]
  have h1 : 1 ≤ a / b := (Int.le_ediv_iff_mul_le hb).mpr (by omega)
  omega

theorem pyRangeLen_zero_mul {s : Int} (hs : 0 < s) (n : Nat) :
    pyRangeLen 0 ((n : Int) * s) s = n := by
  unfold pyRangeLen
  rw [if_pos hs]
  have h1 : (n : Int) * s - 0 + s - 1 = (s - 1) + (n : Int) * s := by ring
  rw [h1, Int.fdiv_eq_ediv _ (le_of_lt hs),
    Int.add_mul_ediv_right _ _ (by omega : s ≠ 0),
    Int.ediv_eq_zero_of_lt (by omega) (by omega)]
  simp

theorem pyRange_zero (s b : Int) :
    pyRange 0 b s = (List.range (pyRangeLen 0 b s)).map (fun i : Nat => s * (i : Int)) := by
  unfold pyRange
  simp

theorem pyRange_pairwise_neg_one {s : Int} (hs : 0 < s) (b : Int) :
    ((-1 : Int) :: pyRange 0 b s).Pairwise (· ≤ ·) := by
  rw [List.pairwise_cons]
  constructor
  · intro t ht
    rw [pyRange_zero] at ht
    rcases List.mem_map.mp ht with ⟨i, hi, rfl⟩
    have h0 : (0 : Int) ≤ s * (i : Int) := mul_nonneg (le_of_lt hs) (Int.natCast_nonneg i)
    omega
  · rw [pyRange_zero]
    refine List.Pairwise.map _ ?_ (List.pairwise_lt_range _)
    intro i j hij
    exact mul_le_mul_of_nonneg_left
      (show (i : Int) ≤ (j : Int) by exact_mod_cast le_of_lt hij) (le_of_lt hs)

theorem dropWhile_neg_one {evs : List (Int × Msg)} (h : ∀ e ∈ evs, 0 ≤ e.1) :
    evs.dropWhile (fun e => decide (e.1 ≤ (-1 : Int))) = evs := by
  cases evs with
  | nil => rfl
  | cons e rest =>
      have h0 : 0 ≤ e.1 := h e (by simp)
      exact List.dropWhile_cons_of_neg (by simp only [decide_eq_true_eq]; omega)

theorem takeWhile_neg_one {evs : List (Int × Msg)} (h : ∀ e ∈ evs, 0 ≤ e.1) :
    evs.takeWhile (fun e => decide (e.1 ≤ (-1 : Int))) = [] := by
  apply takeWhile_nil_of_all_false
  intro x hx
  have h0 := h x hx
  simp only [decide_eq_false_iff_not]
  omega

/-- The quantizer, characterised: under a valid resolution and non-negative
event times, it returns one token per sample `i`, each obtained by applying
to the empty dict the leading run of events with time `≤ step * i`. -/
theorem extract_eq_map (track : List Msg) (tpb sub : Int)
    (hsub : 0 < sub) (hstep : 0 < tpb.fdiv sub)
    (hd : ∀ e ∈ buildEvents 0 track, 0 ≤ e.1) :
    extract_tokens_with_granularity track tpb sub =
      .ok ((List.range (pyRangeLen 0
            ((((buildEvents 0 track).getLast?).map Prod.fst).getD 0 + tpb.fdiv sub)
            (tpb.fdiv sub))).map
        (fun i : Nat => maxKeys (applyAll []
          ((buildEvents 0 track).takeWhile
            (fun e => decide (e.1 ≤ tpb.fdiv sub * (i : Int))))))) := by
  have h1 := quantLoop_spec (buildEvents 0 track)
    (pyRange 0 ((((buildEvents 0 track).getLast?).map Prod.fst).getD 0 + tpb.fdiv sub)
      (tpb.fdiv sub)) (-1)
    (pyRange_pairwise_neg_one hstep _)
  rw [dropWhile_neg_one hd, takeWhile_neg_one hd] at h1
  have h2 : applyAll [] ([] : List (Int × Msg)) = [] := rfl
  rw [h2] at h1
  simp only [extract_tokens_with_granularity,
    if_neg (show ¬ sub = 0 by omega), if_neg (show ¬ tpb.fdiv sub = 0 by omega)]
  rw [h1, pyRange_zero, List.map_map]
  rfl

/-! ### Synthesizer facts -/

theorem sumTimes_append (xs ys : List Msg) :
    sumTimes (xs ++ ys) = sumTimes xs + sumTimes ys := by
  simp [sumTimes]

theorem transMsgs_ne_nil {d : Int} {pt tok : Option Int} (h : tok ≠ pt) :
    transMsgs d pt tok ≠ [] := by
  cases pt <;> cases tok <;> simp [transMsgs] at h ⊢

theorem transMsgs_sumTimes {pt tok : Option Int} (h : tok ≠ pt) (d : Int) :
    sumTimes (transMsgs d pt tok) = d := by
  cases pt <;> cases tok <;> simp [transMsgs, sumTimes] at h ⊢

theorem genGo_cons_eq (s : Int) (i : Nat) (ct : Int) (pt : Option Int) {tok : Option Int}
    (rest : List (Option Int)) (h : tok = pt) :
    genGo s i ct pt (tok :: rest) = genGo s (i + 1) ct pt rest := by
  simp only [genGo, if_pos h]

theorem genGo_cons_ne (s : Int) (i : Nat) (ct : Int) {pt tok : Option Int}
    (rest : List (Option Int)) (h : ¬ tok = pt) :
    genGo s i ct pt (tok :: rest) =
      (transMsgs ((i : Int) * s - ct) pt tok ++ (genGo s (i + 1) ((i : Int) * s) tok rest).1,
       (genGo s (i + 1) ((i : Int) * s) tok rest).2) := by
  simp only [genGo, if_neg h]

theorem genGo_finalPt (s : Int) : ∀ (toks : List (Option Int)) (i : Nat) (ct : Int)
    (pt : Option Int), (genGo s i ct pt toks).2.2 = toks.getLast?.getD pt := by
  intro toks
  induction toks with
  | nil => intro i ct pt; rfl
  | cons tok rest ih =>
      intro i ct pt
      cases rest with
      | nil => by_cases h : tok = pt <;> simp [genGo, h]
      | cons b l =>
          have hbl : ∃ a, (b :: l).getLast? = some a := by
            cases hx : (b :: l).getLast? with
            | none => exact absurd (List.getLast?_eq_none_iff.mp hx) (by simp)
            | some a => exact ⟨a, rfl⟩
          rcases hbl with ⟨a, ha⟩
          by_cases h : tok = pt
          · rw [genGo_cons_eq s i ct pt _ h, ih, List.getLast?_cons_cons]
          · rw [genGo_cons_ne s i ct _ h]
            show (genGo s (i + 1) ((i : Int) * s) tok (b :: l)).2.2 = _
            rw [ih, List.getLast?_cons_cons, ha]
            simp

theorem genGo_sum (s : Int) : ∀ (toks : List (Option Int)) (i : Nat) (ct : Int)
    (pt : Option Int), sumTimes (genGo s i ct pt toks).1 = (genGo s i ct pt toks).2.1 - ct := by
  intro toks
  induction toks with
  | nil => intro i ct pt; simp [genGo, sumTimes]
  | cons tok rest ih =>
      intro i ct pt
      by_cases h : tok = pt
      · simp [genGo, h, ih]
      · simp only [genGo, if_neg h]
        rw [sumTimes_append, transMsgs_sumTimes h, ih]
        ring

theorem genGo_ne_nil (s : Int) : ∀ (toks : List (Option Int)) (i : Nat) (ct : Int)
    (pt x : Option Int), x ∈ toks → x ≠ pt → (genGo s i ct pt toks).1 ≠ [] := by
  intro toks
  induction toks with
  | nil => intro i ct pt x hx; simp at hx
  | cons tok rest ih =>
      intro i ct pt x hx hxp
      by_cases h : tok = pt
      · have hxr : x ∈ rest := by
          rcases List.mem_cons.mp hx with rfl | hr
          · exact absurd h hxp
          · exact hr
        simpa [genGo, h] using ih (i + 1) ct pt x hxr hxp
      · simp only [genGo, if_neg h]
        simp only [ne_eq, List.append_eq_nil, not_and]
        intro htr
        exact absurd htr (transMsgs_ne_nil h)

theorem genGo_append (s : Int) : ∀ (xs ys : List (Option Int)) (i : Nat) (ct : Int)
    (pt : Option Int),
    genGo s i ct pt (xs ++ ys) =
      ((genGo s i ct pt xs).1 ++
        (genGo s (i + xs.length) (genGo s i ct pt xs).2.1 (genGo s i ct pt xs).2.2 ys).1,
       (genGo s (i + xs.length) (genGo s i ct pt xs).2.1 (genGo s i ct pt xs).2.2 ys).2) := by
  intro xs
  induction xs with
  | nil => intro ys i ct pt; simp [genGo]
  | cons x xs ih =>
      intro ys i ct pt
      have hlen : i + (x :: xs).length = (i + 1) + xs.length := by simp; omega
      rw [hlen]
      by_cases h : x = pt
      · simp only [List.cons_append, genGo, if_pos h, List.append_eq]
        exact ih ys (i + 1) ct pt
      · simp only [List.cons_append, genGo, if_neg h, List.append_eq]
        rw [ih ys (i + 1) ((i : Int) * s) x]
        simp [List.append_assoc]

/-- The absolute-time events of the synthesized track: each transition at step
`i` contributes its messages at absolute time `i * step`. -/
def synthEvs (s : Int) : Nat → Int → Option Int → List (Option Int) → List (Int × Msg)
  | _, _, _, [] => []
  | i, ct, pt, tok :: rest =>
      if tok = pt then synthEvs s (i + 1) ct pt rest
      else (transMsgs ((i : Int) * s - ct) pt tok).map (fun m => ((i : Int) * s, m))
            ++ synthEvs s (i + 1) ((i : Int) * s) tok rest

theorem buildEvents_transMsgs (x ct : Int) {pt tok : Option Int} (h : tok ≠ pt)
    (more : List Msg) :
    buildEvents ct (transMsgs (x - ct) pt tok ++ more) =
      (transMsgs (x - ct) pt tok).map (fun m => (x, m)) ++ buildEvents x more := by
  have hx : ct + (x - ct) = x := by ring
  cases pt <;> cases tok
  · exact absurd rfl h
  all_goals
    simp only [transMsgs, List.cons_append, List.nil_append, buildEvents, List.map_cons,
      List.map_nil, hx, add_zero, List.append_eq, List.append_nil]

theorem buildEvents_genGo (s : Int) : ∀ (toks : List (Option Int)) (i : Nat) (ct : Int)
    (pt : Option Int), buildEvents ct (genGo s i ct pt toks).1 = synthEvs s i ct pt toks := by
  intro toks
  induction toks with
  | nil => intro i ct pt; rfl
  | cons tok rest ih =>
      intro i ct pt
      by_cases h : tok = pt
      · simp [genGo, synthEvs, h, ih]
      · simp only [genGo, synthEvs, if_neg h]
        rw [buildEvents_transMsgs _ _ h, ih]

theorem synthEvs_times (s : Int) : ∀ (toks : List (Option Int)) (i : Nat) (ct : Int)
    (pt : Option Int), ∀ e ∈ synthEvs s i ct pt toks,
    ∃ j : Nat, i ≤ j ∧ j < i + toks.length ∧ e.1 = (j : Int) * s := by
  intro toks
  induction toks with
  | nil => intro i ct pt e he; simp [synthEvs] at he
  | cons tok rest ih =>
      intro i ct pt e he
      by_cases h : tok = pt
      · rw [synthEvs, if_pos h] at he
        rcases ih (i + 1) ct pt e he with ⟨j, hj1, hj2, hj3⟩
        exact ⟨j, by omega, by simp; omega, hj3⟩
      · rw [synthEvs, if_neg h] at he
        rcases List.mem_append.mp he with hm | hm
        · rcases List.mem_map.mp hm with ⟨m, _, rfl⟩
          exact ⟨i, le_refl i, by simp, rfl⟩
        · rcases ih (i + 1) ((i : Int) * s) tok e hm with ⟨j, hj1, hj2, hj3⟩
          exact ⟨j, by omega, by simp; omega, hj3⟩

/-- Shape of the active-note dict while quantizing a synthesized track: empty
during a rest, a single entry holding the current pitch otherwise. -/
def activeLike (pt : Option Int) (d : List (Int × Int)) : Prop :=
  match pt with
  | none => d = []
  | some q => ∃ v, d = [(q, v)]

theorem maxKeys_activeLike : ∀ {pt : Option Int} {d : List (Int × Int)},
    activeLike pt d → maxKeys d = pt := by
  intro pt d h
  cases pt with
  | none => rw [show d = [] from h]; rfl
  | some q => rcases h with ⟨v, rfl⟩; rfl

theorem applyAll_transGroup {pt tok : Option Int} (h : tok ≠ pt) {d : List (Int × Int)}
    (hd : activeLike pt d) (x dl : Int) :
    activeLike tok (applyAll d ((transMsgs dl pt tok).map (fun m => (x, m)))) := by
  cases pt with
  | none =>
      rw [show d = [] from hd]
      cases tok with
      | none => exact absurd rfl h
      | some q =>
          show activeLike (some q) (applyAll [] [(x, ⟨.note_on, q, 64, dl⟩)])
          exact ⟨x, by simp [applyAll, applyEvent, dictInsert]⟩
  | some p =>
      rcases hd with ⟨v, rfl⟩
      cases tok with
      | none =>
          show activeLike none (applyAll [(p, v)] [(x, ⟨.note_off, p, 0, dl⟩)])
          simp [activeLike, applyAll, applyEvent, dictPop]
      | some q =>
          show activeLike (some q)
            (applyAll [(p, v)] [(x, ⟨.note_off, p, 0, dl⟩), (x, ⟨.note_on, q, 64, 0⟩)])
          exact ⟨x, by simp [applyAll, applyEvent, dictPop, dictInsert]⟩

theorem synthActive (s : Int) (hs : 0 < s) :
    ∀ (toks : List (Option Int)) (k i : Nat) (ct : Int) (pt : Option Int)
      (d : List (Int × Int)) (hk : k < toks.length), activeLike pt d →
      activeLike (toks.get ⟨k, hk⟩)
        (applyAll d ((synthEvs s i ct pt toks).takeWhile
          (fun e => decide (e.1 ≤ ((i + k : Nat) : Int) * s)))) := by
  intro toks
  induction toks with
  | nil => intro k i ct pt d hk; simp at hk
  | cons tok rest ih =>
      intro k i ct pt d hk hd
      have htail : ∀ (ct2 : Int) (pt2 : Option Int) (b : Int), b < ((i + 1 : Nat) : Int) * s →
          (synthEvs s (i + 1) ct2 pt2 rest).takeWhile
            (fun e => decide (e.1 ≤ b)) = [] := by
        intro ct2 pt2 b hb
        apply takeWhile_nil_of_all_false
        intro e he
        rcases synthEvs_times s rest (i + 1) ct2 pt2 e he with ⟨j, hj1, _, hj3⟩
        simp only [decide_eq_false_iff_not, not_le]
        rw [hj3]
        calc b < ((i + 1 : Nat) : Int) * s := hb
          _ ≤ (j : Int) * s :=
            mul_le_mul_of_nonneg_right (by exact_mod_cast hj1) (le_of_lt hs)
      by_cases h : tok = pt
      · cases k with
        | zero =>
            have hb : ((i + 0 : Nat) : Int) * s < ((i + 1 : Nat) : Int) * s := by
              have : ((i + 0 : Nat) : Int) < ((i + 1 : Nat) : Int) := by
                exact_mod_cast (by omega : i + 0 < i + 1)
              exact mul_lt_mul_of_pos_right this hs
            rw [synthEvs, if_pos h, htail ct pt _ hb]
            show activeLike ((tok :: rest).get ⟨0, hk⟩) d
            simp only [List.get]
            rw [h]
            exact hd
        | succ k2 =>
            have harith : i + (k2 + 1) = (i + 1) + k2 := by omega
            simp only [synthEvs, if_pos h, harith]
            have hk2 : k2 < rest.length := by simpa using hk
            have := ih k2 (i + 1) ct pt d hk2 hd
            simpa [List.get] using this
      · have hgrp : ∀ e ∈ (transMsgs ((i : Int) * s - ct) pt tok).map
            (fun m => ((i : Int) * s, m)),
            (fun e : Int × Msg => decide (e.1 ≤ ((i + k : Nat) : Int) * s)) e = true := by
          intro e he
          rcases List.mem_map.mp he with ⟨m, _, rfl⟩
          simp only [decide_eq_true_eq]
          exact mul_le_mul_of_nonneg_right
            (by exact_mod_cast (by omega : i ≤ i + k)) (le_of_lt hs)
        cases k with
        | zero =>
            have hb : ((i + 0 : Nat) : Int) * s < ((i + 1 : Nat) : Int) * s := by
              have : ((i + 0 : Nat) : Int) < ((i + 1 : Nat) : Int) := by
                exact_mod_cast (by omega : i + 0 < i + 1)
              exact mul_lt_mul_of_pos_right this hs
            rw [synthEvs, if_neg h, takeWhile_append_of_all hgrp,
              htail ((i : Int) * s) tok _ hb, List.append_nil]
            show activeLike ((tok :: rest).get ⟨0, hk⟩)
              (applyAll d ((transMsgs ((i : Int) * s - ct) pt tok).map
                (fun m => ((i : Int) * s, m))))
            simp only [List.get]
            exact applyAll_transGroup h hd _ _
        | succ k2 =>
            have harith : i + (k2 + 1) = (i + 1) + k2 := by omega
            simp only [synthEvs, if_neg h, harith]
            rw [takeWhile_append_of_all (by simpa [harith] using hgrp), applyAll_append]
            have hk2 : k2 < rest.length := by simpa using hk
            have hinner := applyAll_transGroup h hd ((i : Int) * s) ((i : Int) * s - ct)
            have := ih k2 (i + 1) ((i : Int) * s) tok _ hk2 hinner
            simpa [List.get] using this

theorem buildEvents_getLast : ∀ (l : List Msg) (c : Int), l ≠ [] →
    ((buildEvents c l).getLast?.map Prod.fst).getD 0 = c + sumTimes l := by
  intro l
  induction l with
  | nil => intro c h; exact absurd rfl h
  | cons m rest ih =>
      intro c _
      cases rest with
      | nil => simp [buildEvents, sumTimes]
      | cons m2 rest2 =>
          have h2 := ih (c + m.time) (by simp)
          simp only [buildEvents] at h2 ⊢
          rw [List.getLast?_cons_cons, h2]
          simp only [sumTimes_cons]
          ring

/-- Claim C1 (amended): the round trip is exact for grids whose final token is
a rest preceded by a pitch (a trailing rest run of length exactly one), or the
one-token grid `[rest]`. -/
theorem round_trip_exact (g : List (Option Int)) (tpb sub : Int)
    (hsub : 0 < sub) (hdvd : sub ∣ tpb) (htpb : 0 < tpb)
    (hne : g ≠ []) (hlast : g.getLast? = some none)
    (hprev : g.dropLast.getLast? ≠ some none) :
    ∃ msgs, generate_midi_from_tokens g tpb sub = .ok msgs ∧
      extract_tokens_with_granularity msgs tpb sub = .ok g := by
  obtain ⟨s, hsdef⟩ : ∃ s, tpb.fdiv sub = s := ⟨_, rfl⟩
  have hstep : 0 < s := hsdef ▸ fdiv_pos_of_le hsub (Int.le_of_dvd htpb hdvd)
  have hfpt : (genGo s 0 0 none g).2.2 = none := by
    rw [genGo_finalPt, hlast]; rfl
  have hgen : generate_midi_from_tokens g tpb sub = .ok (genGo s 0 0 none g).1 := by
    simp only [generate_midi_from_tokens, if_neg (show ¬ sub = 0 by omega), hsdef, hfpt]
    simp
  refine ⟨(genGo s 0 0 none g).1, hgen, ?_⟩
  have hevs : buildEvents 0 (genGo s 0 0 none g).1 = synthEvs s 0 0 none g :=
    buildEvents_genGo s g 0 0 none
  have hd : ∀ e ∈ buildEvents 0 (genGo s 0 0 none g).1, 0 ≤ e.1 := by
    intro e he
    rw [hevs] at he
    rcases synthEvs_times s g 0 0 none e he with ⟨j, _, _, hj3⟩
    rw [hj3]
    exact mul_nonneg (Int.natCast_nonneg j) (le_of_lt hstep)
  rw [extract_eq_map _ tpb sub hsub (hsdef ▸ hstep) hd]
  simp only [hsdef]
  by_cases hgd : g.dropLast = []
  · -- the grid is the single rest [none]
    have hg : g = [none] := by
      cases g with
      | nil => exact absurd rfl hne
      | cons a t =>
          cases t with
          | nil =>
              have ha : a = none := by simpa using hlast
              rw [ha]
          | cons a2 t2 => simp [List.dropLast] at hgd
    subst hg
    have hmsgs : genGo s 0 0 none [none] = ([], 0, none) := by
      rw [genGo_cons_eq s 0 0 none _ rfl]; rfl
    have hN : pyRangeLen 0 s s = 1 := by
      have h1 := pyRangeLen_zero_mul hstep 1
      simpa using h1
    simp [hmsgs, buildEvents, hN, maxKeys, applyAll]
  · -- the grid ends with pitch-then-rest
    obtain ⟨gd, rfl⟩ : ∃ gd, g = gd ++ [none] := by
      refine ⟨g.dropLast, ?_⟩
      exact (List.dropLast_append_getLast? none (Option.mem_def.mpr hlast)).symm
    have hgdne : gd ≠ [] := by simpa [List.dropLast_concat] using hgd
    obtain ⟨x, hx⟩ : ∃ x, gd.getLast? = some x := by
      cases hy : gd.getLast? with
      | none => exact absurd (List.getLast?_eq_none_iff.mp hy) hgdne
      | some x => exact ⟨x, rfl⟩
    obtain ⟨p, rfl⟩ : ∃ p : Int, x = some p := by
      cases x with
      | none =>
          refine absurd ?_ hprev
          rw [List.dropLast_concat]
          exact hx
      | some p => exact ⟨p, rfl⟩
    have hpt1 : (genGo s 0 0 none gd).2.2 = some p := by
      rw [genGo_finalPt, hx]; rfl
    have hB : genGo s (0 + gd.length) (genGo s 0 0 none gd).2.1
          (genGo s 0 0 none gd).2.2 [none]
        = ([⟨.note_off, p, 0, (gd.length : Int) * s - (genGo s 0 0 none gd).2.1⟩],
           (gd.length : Int) * s, none) := by
      rw [hpt1, genGo_cons_ne s (0 + gd.length) _ _ (by simp)]
      simp [transMsgs, genGo]
    have hGa : genGo s 0 0 none (gd ++ [none]) =
        ((genGo s 0 0 none gd).1 ++
           [⟨.note_off, p, 0, (gd.length : Int) * s - (genGo s 0 0 none gd).2.1⟩],
         (gd.length : Int) * s, none) := by
      rw [genGo_append s gd [none] 0 0 none, hB]
    have hmne : (genGo s 0 0 none (gd ++ [none])).1 ≠ [] := by
      rw [hGa]; simp
    have hft : ((buildEvents 0 (genGo s 0 0 none (gd ++ [none])).1).getLast?.map
          Prod.fst).getD 0 = (gd.length : Int) * s := by
      rw [buildEvents_getLast _ 0 hmne, genGo_sum, hGa]
      ring
    have hN : pyRangeLen 0 ((gd.length : Int) * s + s) s = gd.length + 1 := by
      have hc : (gd.length : Int) * s + s = ((gd.length + 1 : Nat) : Int) * s := by
        push_cast; ring
      rw [hc, pyRangeLen_zero_mul hstep]
    rw [hft, hN]
    refine congrArg Except.ok ?_
    apply List.ext_getElem
    · simp
    · intro k h1 h2
      simp only [List.getElem_map, List.getElem_range]
      have hk : k < (gd ++ [none]).length := h2
      have hfun : (fun e : Int × Msg => decide (e.1 ≤ s * (k : Int)))
          = (fun e : Int × Msg => decide (e.1 ≤ ((0 + k : Nat) : Int) * s)) := by
        funext e
        rw [Nat.zero_add, Int.mul_comm]
      rw [hevs, hfun]
      have hsim := synthActive s hstep (gd ++ [none]) k 0 0 none [] hk rfl
      have hmk := maxKeys_activeLike hsim
      rw [hmk]
      simp [List.get_eq_getElem]

/-! ### Note-on / note-off matching -/

/-- Every `note_on` in the list is followed by a later `note_off` for the
same pitch. -/
def matchedOns (msgs : List Msg) : Prop :=
  ∀ a x b, msgs = a ++ x :: b → x.type = .note_on →
    ∃ y ∈ b, y.type = .note_off ∧ y.note = x.note

theorem matchedOns_nil : matchedOns [] := by
  intro a x b h hx
  have hlen := congrArg List.length h
  simp at hlen
  omega

theorem matchedOns_cons {M : List Msg} {m : Msg} (hM : matchedOns M)
    (hm : m.type = .note_on → ∃ y ∈ M, y.type = .note_off ∧ y.note = m.note) :
    matchedOns (m :: M) := by
  intro a x b h hx
  cases a with
  | nil =>
      rw [List.nil_append] at h
      injection h with h1 h2
      subst h1
      subst h2
      exact hm hx
  | cons a0 a1 =>
      rw [List.cons_append] at h
      injection h with h1 h2
      exact hM a1 x b h2 hx

theorem offIn_genGo (s : Int) : ∀ (toks : List (Option Int)) (i : Nat) (ct : Int)
    (pt : Option Int) (tail : List Msg) (q : Int), pt = some q →
    (∀ q2 : Int, (genGo s i ct pt toks).2.2 = some q2 →
       ∃ y ∈ tail, y.type = .note_off ∧ y.note = q2) →
    ∃ y ∈ (genGo s i ct pt toks).1 ++ tail, y.type = .note_off ∧ y.note = q := by
  intro toks
  induction toks with
  | nil =>
      intro i ct pt tail q hq hfin
      rcases hfin q (by rw [show (genGo s i ct pt []).2.2 = pt from rfl, hq]) with ⟨y, hy, hyt⟩
      refine ⟨y, ?_, hyt⟩
      simpa [genGo] using hy
  | cons tok rest ih =>
      intro i ct pt tail q hq hfin
      by_cases h : tok = pt
      · rw [genGo_cons_eq s i ct pt _ h] at hfin ⊢
        exact ih (i + 1) ct pt tail q hq hfin
      · rw [genGo_cons_ne s i ct _ h] at hfin ⊢
        subst hq
        refine ⟨⟨.note_off, q, 0, (i : Int) * s - ct⟩, ?_, by simp⟩
        cases tok <;> simp [transMsgs]

theorem matchedOns_genGo (s : Int) : ∀ (toks : List (Option Int)) (i : Nat) (ct : Int)
    (pt : Option Int) (tail : List Msg), matchedOns tail →
    (∀ q : Int, (genGo s i ct pt toks).2.2 = some q →
       ∃ y ∈ tail, y.type = .note_off ∧ y.note = q) →
    matchedOns ((genGo s i ct pt toks).1 ++ tail) := by
  intro toks
  induction toks with
  | nil =>
      intro i ct pt tail ht _
      simpa [genGo] using ht
  | cons tok rest ih =>
      intro i ct pt tail ht hfin
      by_cases h : tok = pt
      · rw [genGo_cons_eq s i ct pt _ h] at hfin ⊢
        exact ih (i + 1) ct pt tail ht hfin
      · rw [genGo_cons_ne s i ct _ h] at hfin ⊢
        have hrest := ih (i + 1) ((i : Int) * s) tok tail ht hfin
        rw [List.append_assoc]
        cases pt with
        | none =>
            cases tok with
            | none => exact absurd rfl h
            | some q =>
                simp only [transMsgs, List.cons_append, List.nil_append]
                refine matchedOns_cons hrest ?_
                intro _
                exact offIn_genGo s rest (i + 1) ((i : Int) * s) (some q) tail q rfl hfin
        | some p =>
            cases tok with
            | none =>
                simp only [transMsgs, List.cons_append, List.nil_append]
                refine matchedOns_cons hrest ?_
                intro hcon
                exact absurd hcon (by simp)
            | some q =>
                simp only [transMsgs, List.cons_append, List.nil_append]
                refine matchedOns_cons (matchedOns_cons hrest ?_) ?_
                · intro _
                  exact offIn_genGo s rest (i + 1) ((i : Int) * s) (some q) tail q rfl hfin
                · intro hcon
                  exact absurd hcon (by simp)

/-! ### Claim theorems -/

/-- Claim C1, witness: the round trip is exact on `[60, rest]` at 480/6. -/
theorem round_trip_exact_witness :
    ∃ msgs, generate_midi_from_tokens [some 60, none] 480 6 = .ok msgs ∧
      extract_tokens_with_granularity msgs 480 6 = .ok [some 60, none] :=
  round_trip_exact [some 60, none] 480 6 (by decide) (⟨80, by norm_num⟩) (by decide)
    (by decide) (by decide) (by decide)

/-- Claim C1, counterexample to the claim as stated: at resolution 480/6
(with 6 dividing 480) the grid `[60]` synthesizes and re-quantizes to
`[60, rest]`, not `[60]`. -/
theorem round_trip_cex :
    (6 : Int) ∣ 480 ∧
    generate_midi_from_tokens [some 60] 480 6 =
      .ok [⟨.note_on, 60, 64, 0⟩, ⟨.note_off, 60, 0, 80⟩] ∧
    extract_tokens_with_granularity [⟨.note_on, 60, 64, 0⟩, ⟨.note_off, 60, 0, 80⟩] 480 6 =
      .ok [some 60, none] ∧
    ([some 60, none] : List (Option Int)) ≠ [some 60] := by
  exact ⟨⟨80, by norm_num⟩, rfl, rfl, by decide⟩

/-- Claim C3 (amended): when the final token of the grid is a pitch, the sum
of the delta-time fields of the synthesized track is
`len(tokens) * step_size`. -/
theorem total_duration_pitch_final (g : List (Option Int)) (tpb sub p : Int)
    (hsub : sub ≠ 0) (hlast : g.getLast? = some (some p)) :
    ∃ msgs, generate_midi_from_tokens g tpb sub = .ok msgs ∧
      sumTimes msgs = (g.length : Int) * tpb.fdiv sub := by
  obtain ⟨s, hsdef⟩ : ∃ s, tpb.fdiv sub = s := ⟨_, rfl⟩
  rw [hsdef]
  have hfpt : (genGo s 0 0 none g).2.2 = some p := by
    rw [genGo_finalPt, hlast]; rfl
  refine ⟨(genGo s 0 0 none g).1 ++
    [⟨.note_off, p, 0, (g.length : Int) * s - (genGo s 0 0 none g).2.1⟩], ?_, ?_⟩
  · simp only [generate_midi_from_tokens, if_neg hsub, hsdef, hfpt]
  · rw [sumTimes_append, genGo_sum]
    simp only [sumTimes, List.map_cons, List.map_nil, List.sum_cons, List.sum_nil]
    ring

/-- Claim C3, witness at `[60]`, 480/6. -/
theorem total_duration_witness :
    ∃ msgs, generate_midi_from_tokens [some 60] 480 6 = .ok msgs ∧
      sumTimes msgs = (([some 60] : List (Option Int)).length : Int) * (480 : Int).fdiv 6 :=
  total_duration_pitch_final [some 60] 480 6 60 (by decide) (by decide)

/-- Claim C3, counterexample to the claim as stated: the grid `[60, rest]`
at 480/6 synthesizes to messages whose delta times sum to 80, not
`2 * 80 = 160`. -/
theorem total_duration_cex :
    generate_midi_from_tokens [some 60, none] 480 6 =
      .ok [⟨.note_on, 60, 64, 0⟩, ⟨.note_off, 60, 0, 80⟩] ∧
    sumTimes [⟨.note_on, 60, 64, 0⟩, ⟨.note_off, 60, 0, 80⟩] = 80 ∧
    (80 : Int) ≠ (([some 60, none] : List (Option Int)).length : Int) * (480 : Int).fdiv 6 := by
  exact ⟨rfl, by decide, by decide⟩

/-- Claim C5 (amended): with a valid resolution an empty track quantizes to
the single-rest grid `[rest]` (the sampling loop still takes the step at
`t = 0`), an empty grid synthesizes to an empty track, and neither raises. -/
theorem empty_input_behaviour (tpb sub : Int) (h1 : 0 < sub) (h2 : sub ≤ tpb) :
    extract_tokens_with_granularity [] tpb sub = .ok [none] ∧
    generate_midi_from_tokens [] tpb sub = .ok [] := by
  obtain ⟨s, hsdef⟩ : ∃ s, tpb.fdiv sub = s := ⟨_, rfl⟩
  have hstep : 0 < s := hsdef ▸ fdiv_pos_of_le h1 h2
  constructor
  · have hN : pyRangeLen 0 s s = 1 := by
      have h3 := pyRangeLen_zero_mul hstep 1
      simpa using h3
    simp only [extract_tokens_with_granularity, if_neg (show ¬ sub = 0 by omega), hsdef,
      if_neg (show ¬ s = 0 by omega)]
    simp [buildEvents, pyRange, hN, quantLoop, processEvents, maxKeys, applyAll]
  · simp [generate_midi_from_tokens, if_neg (show ¬ sub = 0 by omega), genGo]

/-- Claim C5, witness at 480/6. -/
theorem empty_input_witness :
    extract_tokens_with_granularity [] 480 6 = .ok [none] ∧
    generate_midi_from_tokens [] 480 6 = .ok [] :=
  empty_input_behaviour 480 6 (by decide) (by decide)

/-- Claim C5, counterexample to the claim as stated: the empty track at 480/6
quantizes to `[rest]`, not to the empty grid. -/
theorem empty_input_cex :
    extract_tokens_with_granularity [] 480 6 = .ok [none] ∧
    (Except.ok [none] : Except PyError (List (Option Int))) ≠ .ok [] := by
  refine ⟨rfl, ?_⟩
  intro h
  simp at h

/-- Claim C6: in a synthesized track every `note_on` is followed by a later
`note_off` for the same pitch, and for a pitch-final grid the track is the
loop output plus exactly one final `note_off` with delta
`len(tokens) * step_size - current_time`. -/
theorem note_on_matched_and_flush (g : List (Option Int)) (tpb sub : Int) (msgs : List Msg)
    (hsub : sub ≠ 0) (hok : generate_midi_from_tokens g tpb sub = .ok msgs) :
    (∀ a x b, msgs = a ++ x :: b → x.type = .note_on →
       ∃ y ∈ b, y.type = .note_off ∧ y.note = x.note) ∧
    (∀ p : Int, g.getLast? = some (some p) →
       msgs = (genGo (tpb.fdiv sub) 0 0 none g).1 ++
         [⟨.note_off, p, 0,
            (g.length : Int) * tpb.fdiv sub - (genGo (tpb.fdiv sub) 0 0 none g).2.1⟩]) := by
  have hmsgs : msgs = (genGo (tpb.fdiv sub) 0 0 none g).1 ++
      (match (genGo (tpb.fdiv sub) 0 0 none g).2.2 with
       | some p => [⟨.note_off, p, 0,
            (g.length : Int) * tpb.fdiv sub - (genGo (tpb.fdiv sub) 0 0 none g).2.1⟩]
       | none => []) := by
    simp only [generate_midi_from_tokens, if_neg hsub] at hok
    exact (by simpa using hok.symm)
  constructor
  · rw [hmsgs]
    apply matchedOns_genGo
    · cases hc : (genGo (tpb.fdiv sub) 0 0 none g).2.2 with
      | none => exact matchedOns_nil
      | some p =>
          refine matchedOns_cons matchedOns_nil ?_
          intro hcon
          exact absurd hcon (by simp)
    · intro q hq
      rw [hq]
      exact ⟨⟨.note_off, q, 0,
        (g.length : Int) * tpb.fdiv sub - (genGo (tpb.fdiv sub) 0 0 none g).2.1⟩,
        by simp, by simp⟩
  · intro p hp
    have hfpt : (genGo (tpb.fdiv sub) 0 0 none g).2.2 = some p := by
      rw [genGo_finalPt, hp]; rfl
    rw [hmsgs, hfpt]

/-- Claim C6, witness at `[60]`, 480/6. -/
theorem note_on_matched_witness :
    (∀ a x b, ([⟨MsgType.note_on, 60, 64, 0⟩, ⟨MsgType.note_off, 60, 0, 80⟩] : List Msg)
        = a ++ x :: b → x.type = .note_on →
       ∃ y ∈ b, y.type = .note_off ∧ y.note = x.note) ∧
    (∀ p : Int, ([some 60] : List (Option Int)).getLast? = some (some p) →
       ([⟨MsgType.note_on, 60, 64, 0⟩, ⟨MsgType.note_off, 60, 0, 80⟩] : List Msg)
         = (genGo ((480 : Int).fdiv 6) 0 0 none [some 60]).1 ++
         [⟨.note_off, p, 0,
            (([some 60] : List (Option Int)).length : Int) * (480 : Int).fdiv 6
              - (genGo ((480 : Int).fdiv 6) 0 0 none [some 60]).2.1⟩]) :=
  note_on_matched_and_flush [some 60] 480 6
    [⟨MsgType.note_on, 60, 64, 0⟩, ⟨MsgType.note_off, 60, 0, 80⟩] (by decide) rfl

/-- Claim C8: the sentinel coding round-trips on the token alphabet — the
rest marker goes to `-1` and back to rest, and a pitch distinct from the
sentinel value passes through unchanged. -/
theorem sentinel_round_trip (t : Option Int)
    (h : t = none ∨ ∃ p : Int, t = some p ∧ p ≠ -1) :
    replace_neg1_with_none [noneToNeg1 t] = [t] := by
  rcases h with rfl | ⟨p, rfl, hp⟩
  · rfl
  · simp [replace_neg1_with_none, noneToNeg1, hp]

/-- Claim C8, witness at the pitch 60. -/
theorem sentinel_round_trip_witness :
    replace_neg1_with_none [noneToNeg1 (some 60)] = [some 60] :=
  sentinel_round_trip (some 60) (Or.inr ⟨60, rfl, by decide⟩)

/-- Claim C9: the concrete scenario at 480/6 — quantizing
`note_on(60) at t=0, note_off(60) at t=160` yields `[60, 60, rest]`, and
synthesizing `[60, 60, rest]` yields `note_on(60, Δ=0), note_off(60, Δ=160)`. -/
theorem concrete_scenario_480_6 :
    extract_tokens_with_granularity [⟨.note_on, 60, 64, 0⟩, ⟨.note_off, 60, 0, 160⟩] 480 6
      = .ok [some 60, some 60, none] ∧
    generate_midi_from_tokens [some 60, some 60, none] 480 6
      = .ok [⟨.note_on, 60, 64, 0⟩, ⟨.note_off, 60, 0, 160⟩] := by
  exact ⟨rfl, rfl⟩

/-! ### Trimmer facts -/

theorem firstNonNone_lt : ∀ {l : List (Option Int)}, (∃ x ∈ l, x ≠ none) →
    firstNonNone l < l.length := by
  intro l
  induction l with
  | nil => intro h; rcases h with ⟨x, hx, _⟩; simp at hx
  | cons a rest ih =>
      intro h
      cases a with
      | some v => simp [firstNonNone]
      | none =>
          have hr : ∃ x ∈ rest, x ≠ none := by
            rcases h with ⟨x, hx, hxn⟩
            rcases List.mem_cons.mp hx with rfl | hm
            · exact absurd rfl hxn
            · exact ⟨x, hm, hxn⟩
          simpa [firstNonNone] using ih hr

theorem firstNonNone_le_of_ne : ∀ (l : List (Option Int)) (i : Nat) (hi : i < l.length),
    l.get ⟨i, hi⟩ ≠ none → firstNonNone l ≤ i := by
  intro l
  induction l with
  | nil => intro i hi; simp at hi
  | cons a rest ih =>
      intro i hi h
      cases a with
      | some v => simp [firstNonNone]
      | none =>
          cases i with
          | zero => simp at h
          | succ i2 =>
              have := ih i2 (by simpa using hi) (by simpa using h)
              simp only [firstNonNone]
              omega

theorem firstNonNone_get : ∀ (l : List (Option Int)) (h : firstNonNone l < l.length),
    l.get ⟨firstNonNone l, h⟩ ≠ none := by
  intro l
  induction l with
  | nil => intro h; simp at h
  | cons a rest ih =>
      intro h
      cases a with
      | some v => simp [firstNonNone]
      | none =>
          have h2 : firstNonNone rest < rest.length := by
            simpa [firstNonNone] using h
          simpa [firstNonNone] using ih h2

theorem first_add_trailing {l : List (Option Int)} (h : ∃ x ∈ l, x ≠ none) :
    firstNonNone l + firstNonNone l.reverse ≤ l.length - 1 := by
  have hF : firstNonNone l < l.length := firstNonNone_lt h
  have hget : l.get ⟨firstNonNone l, hF⟩ ≠ none := firstNonNone_get l hF
  have hidx : l.length - 1 - firstNonNone l < l.reverse.length := by
    simp
    omega
  have hnum : l.length - 1 - (l.length - 1 - firstNonNone l) = firstNonNone l := by
    omega
  have hrev : l.reverse.get ⟨l.length - 1 - firstNonNone l, hidx⟩
      = l.get ⟨firstNonNone l, hF⟩ := by
    rw [List.get_eq_getElem, List.get_eq_getElem]
    simp only [List.getElem_reverse]
    congr 1
  have := firstNonNone_le_of_ne l.reverse (l.length - 1 - firstNonNone l) hidx
    (hrev ▸ hget)
  omega

theorem pySlice_eq {α : Type} (l : List α) (a b : Nat) (ha : a ≤ l.length)
    (hb : b ≤ l.length) :
    pySlice l (a : Int) (b : Int) = (l.take b).drop a := by
  have h1 : ¬ ((a : Int) < 0) := not_lt.mpr (Int.natCast_nonneg _)
  have h2 : ¬ ((b : Int) < 0) := not_lt.mpr (Int.natCast_nonneg _)
  have h3 : min ((l.length : Int)) (a : Int) = (a : Int) :=
    min_eq_right (by exact_mod_cast ha)
  have h4 : min ((l.length : Int)) (b : Int) = (b : Int) :=
    min_eq_right (by exact_mod_cast hb)
  simp only [pySlice, if_neg h1, if_neg h2, h3, h4, Int.toNat_natCast]

/-- Claim C7: with a positive subdivision and a non-rest token present,
the trimmer removes exactly `(first / subdivision) * subdivision` leading
tokens and the floor-aligned count of trailing tokens, then maps every
remaining rest to `-1` and keeps pitches unchanged. -/
theorem trim_removes_block_aligned_runs (tokens : List (Option Int)) (sub : Int)
    (hsub : 0 < sub) (hx : ∃ x ∈ tokens, x ≠ none) :
    trim_and_convert_nones tokens sub =
      .ok (((tokens.drop (firstNonNone tokens / sub.toNat * sub.toNat)).take
        (tokens.length - firstNonNone tokens / sub.toNat * sub.toNat
          - firstNonNone tokens.reverse / sub.toNat * sub.toNat)).map noneToNeg1) := by
  obtain ⟨sn, rfl⟩ : ∃ sn : Nat, sub = (sn : Int) := ⟨sub.toNat, (Int.toNat_of_nonneg hsub.le).symm⟩
  have hsn : 0 < sn := by exact_mod_cast hsub
  simp only [Int.toNat_natCast]
  have hFR : firstNonNone tokens + firstNonNone tokens.reverse ≤ tokens.length - 1 :=
    first_add_trailing hx
  have hF : firstNonNone tokens < tokens.length := firstNonNone_lt hx
  have hne : tokens ≠ [] := by
    intro h0
    rw [h0] at hF
    simp at hF
  have hL : ((firstNonNone tokens : Int)).fdiv (sn : Int) * (sn : Int)
      = ((firstNonNone tokens / sn * sn : Nat) : Int) := by
    rw [← Int.ofNat_fdiv]
    push_cast
    ring
  have hR : ((tokens.length : Int) - ((tokens.length : Int) - 1
        - (firstNonNone tokens.reverse : Int)) - 1)
      = (firstNonNone tokens.reverse : Int) := by ring
  have hT : ((firstNonNone tokens.reverse : Int)).fdiv (sn : Int) * (sn : Int)
      = ((firstNonNone tokens.reverse / sn * sn : Nat) : Int) := by
    rw [← Int.ofNat_fdiv]
    push_cast
    ring
  have hLF : firstNonNone tokens / sn * sn ≤ firstNonNone tokens :=
    Nat.div_mul_le_self _ _
  have hTR : firstNonNone tokens.reverse / sn * sn ≤ firstNonNone tokens.reverse :=
    Nat.div_mul_le_self _ _
  simp only [trim_and_convert_nones, if_neg hne, lastNonNone,
    if_neg (show ¬ ((firstNonNone tokens : Int))
      > (tokens.length : Int) - 1 - (firstNonNone tokens.reverse : Int) by omega),
    if_neg (show ¬ ((sn : Int)) = 0 by omega),
    hR, hL, hT]
  congr 1
  have harith : (tokens.length : Int)
      - ((firstNonNone tokens.reverse / sn * sn : Nat) : Int) - 1 + 1
      = ((tokens.length - firstNonNone tokens.reverse / sn * sn : Nat) : Int) := by
    rw [Nat.cast_sub (by omega : firstNonNone tokens.reverse / sn * sn ≤ tokens.length)]
    ring
  rw [harith]
  rw [pySlice_eq tokens _ _ (by omega) (by omega)]
  congr 1
  rw [List.take_drop]
  have hfin : firstNonNone tokens / sn * sn
      + (tokens.length - firstNonNone tokens / sn * sn
          - firstNonNone tokens.reverse / sn * sn)
      = tokens.length - firstNonNone tokens.reverse / sn * sn := by
    omega
  rw [hfin]

/-- Claim C7, witness: the concrete trim scenario of the spec. -/
theorem trim_removes_witness :
    trim_and_convert_nones
        [none, none, none, none, none, some 60, none, some 62, none, none, none] 4
      = .ok [-1, 60, -1, 62, -1, -1, -1] := by
  have h := trim_removes_block_aligned_runs
    [none, none, none, none, none, some 60, none, some 62, none, none, none] 4
    (by decide) ⟨some 60, by decide, by decide⟩
  rw [h]
  rfl

theorem fdiv_neg_of_pos_of_neg {a b : Int} (ha : 0 < a) (hb : b < 0) : a.fdiv b < 0 := by
  rcases Int.eq_negSucc_of_lt_zero hb with ⟨m, rfl⟩
  have ha2 : ∃ n : Nat, a = Int.ofNat (n + 1) := by
    rcases Int.eq_ofNat_of_zero_le ha.le with ⟨n, rfl⟩
    cases n with
    | zero => exact absurd ha (by decide)
    | succ k => exact ⟨k, rfl⟩
  rcases ha2 with ⟨n, rfl⟩
  exact Int.negSucc_lt_zero _

theorem specToken_eq_maxKeys (d : List (Int × Int)) : specToken d = maxKeys d := by
  cases d with
  | nil => rfl
  | cons kv rest =>
      simp only [specToken, maxKeys, List.map_cons]
      rw [show (kv.1 :: List.map Prod.fst rest).max?
          = some ((List.map Prod.fst rest).foldl max kv.1) from rfl]
      rw [List.foldl_map]

/-- Claim C4 (amended): there are no typed resolution errors.  With
`subdivision = 0` both operations raise the untyped `ZeroDivisionError`
(the trimmer only when a non-rest token is present — its early returns come
first); with `0 ≤ ticks_per_beat < subdivision` the zero step size makes the
quantizer raise the `range` `ValueError`; and with a negative subdivision
neither operation fails at all. -/
theorem resolution_errors_untyped (tpb sub : Int) (track : List Msg)
    (toks : List (Option Int)) :
    extract_tokens_with_granularity track tpb 0 = .error .zeroDivisionError
    ∧ ((∃ x ∈ toks, x ≠ none) →
        trim_and_convert_nones toks 0 = .error .zeroDivisionError)
    ∧ (0 ≤ tpb → tpb < sub →
        extract_tokens_with_granularity track tpb sub = .error .rangeStepZeroError)
    ∧ (sub ≠ 0 → ∃ r, trim_and_convert_nones toks sub = .ok r)
    ∧ (0 < tpb → sub < 0 →
        ∃ g2, extract_tokens_with_granularity track tpb sub = .ok g2) := by
  refine ⟨?_, ?_, ?_, ?_, ?_⟩
  · simp [extract_tokens_with_granularity]
  · intro hx
    have hne : toks ≠ [] := by
      rcases hx with ⟨x, hx2, _⟩
      exact List.ne_nil_of_mem hx2
    have hFR := first_add_trailing hx
    have hF := firstNonNone_lt hx
    simp only [trim_and_convert_nones, if_neg hne, lastNonNone,
      if_neg (show ¬ ((firstNonNone toks : Int))
        > (toks.length : Int) - 1 - (firstNonNone toks.reverse : Int) by omega)]
    simp
  · intro h1 h2
    have hs0 : ¬ sub = 0 := by omega
    have hstep : tpb.fdiv sub = 0 := by
      rw [Int.fdiv_eq_ediv _ (by omega : (0 : Int) ≤ sub)]
      exact Int.ediv_eq_zero_of_lt h1 h2
    simp [extract_tokens_with_granularity, hs0, hstep]
  · intro hs
    by_cases h0 : toks = []
    · exact ⟨[], by simp [trim_and_convert_nones, h0]⟩
    · by_cases h1 : ((firstNonNone toks : Int)) > lastNonNone toks
      · exact ⟨[], by simp [trim_and_convert_nones, h0, h1]⟩
      · simp only [trim_and_convert_nones, if_neg h0, if_neg h1, if_neg hs]
        exact ⟨_, rfl⟩
  · intro h1 h2
    have hs0 : ¬ sub = 0 := by omega
    have hstep : ¬ tpb.fdiv sub = 0 := by
      have := fdiv_neg_of_pos_of_neg h1 h2
      omega
    simp only [extract_tokens_with_granularity, if_neg hs0, if_neg hstep]
    exact ⟨_, rfl⟩

/-- Claim C4, witness: the five amended behaviours at concrete inputs. -/
theorem resolution_errors_witness :
    extract_tokens_with_granularity [] 480 0 = .error .zeroDivisionError
    ∧ trim_and_convert_nones [some 60] 0 = .error .zeroDivisionError
    ∧ extract_tokens_with_granularity [] 480 481 = .error .rangeStepZeroError
    ∧ (∃ r, trim_and_convert_nones [some 60] (-1) = .ok r)
    ∧ (∃ g2, extract_tokens_with_granularity [] 480 (-1) = .ok g2) :=
  ⟨(resolution_errors_untyped 480 481 [] [some 60]).1,
   (resolution_errors_untyped 480 481 [] [some 60]).2.1 ⟨some 60, by decide, by decide⟩,
   (resolution_errors_untyped 480 481 [] [some 60]).2.2.1 (by decide) (by decide),
   (resolution_errors_untyped 480 (-1) [] [some 60]).2.2.2.1 (by decide),
   (resolution_errors_untyped 480 (-1) [] [some 60]).2.2.2.2 (by decide) (by decide)⟩

/-- Claim C4, counterexample to the claim as stated: a trimmer call with
`subdivision = -1 ≤ 0` returns a result instead of failing with a typed
resolution error. -/
theorem resolution_errors_cex :
    trim_and_convert_nones [some 60] (-1) = .ok [60] := rfl

/-- Claim C2: with non-negative delta times and a valid resolution the
quantizer succeeds, and the token of each sample step `k * step_size` equals
the spec-side token: the maximum pitch of the active-note set obtained by
applying every event with absolute time `≤ k * step_size`, or the rest
marker when that set is empty. -/
theorem quantizer_token_rule (track : List Msg) (tpb sub : Int)
    (hd : ∀ m ∈ track, 0 ≤ m.time) (hsub : 0 < sub) (hle : sub ≤ tpb) :
    ∃ toks, extract_tokens_with_granularity track tpb sub = .ok toks ∧
      ∀ (k : Nat) (hk : k < toks.length),
        toks.get ⟨k, hk⟩ = specToken (specActive track ((k : Int) * tpb.fdiv sub)) := by
  have hstep : 0 < tpb.fdiv sub := fdiv_pos_of_le hsub hle
  have hd0 : ∀ e ∈ buildEvents 0 track, 0 ≤ e.1 := buildEvents_times_lb track 0 hd
  rw [extract_eq_map track tpb sub hsub hstep hd0]
  refine ⟨_, rfl, ?_⟩
  intro k hk
  simp only [List.get_eq_getElem, List.getElem_map, List.getElem_range]
  have hsorted := buildEvents_sorted track 0 hd
  have himp : (buildEvents 0 track).Pairwise (fun a b =>
      (fun e : Int × Msg => decide (e.1 ≤ tpb.fdiv sub * (k : Int))) b = true →
      (fun e : Int × Msg => decide (e.1 ≤ tpb.fdiv sub * (k : Int))) a = true) := by
    refine hsorted.imp ?_
    intro a b hab hb
    simp only [decide_eq_true_eq] at hb ⊢
    omega
  rw [takeWhile_eq_filter_of_sorted himp, specToken_eq_maxKeys]
  have hfun : (fun e : Int × Msg => decide (e.1 ≤ tpb.fdiv sub * (k : Int)))
      = (fun e : Int × Msg => decide (e.1 ≤ (k : Int) * tpb.fdiv sub)) := by
    funext e
    rw [Int.mul_comm]
  rw [hfun]
  rfl

/-- Claim C2, witness at the concrete two-event track, 480/6. -/
theorem quantizer_token_rule_witness :
    ∃ toks, extract_tokens_with_granularity
        [⟨.note_on, 60, 64, 0⟩, ⟨.note_off, 60, 0, 160⟩] 480 6 = .ok toks ∧
      ∀ (k : Nat) (hk : k < toks.length),
        toks.get ⟨k, hk⟩ = specToken (specActive
          [⟨.note_on, 60, 64, 0⟩, ⟨.note_off, 60, 0, 160⟩] ((k : Int) * (480 : Int).fdiv 6)) :=
  quantizer_token_rule [⟨.note_on, 60, 64, 0⟩, ⟨.note_off, 60, 0, 160⟩] 480 6
    (by decide) (by decide) (by decide)

/-! ### Dict key membership -/

/-- `k` is a key of the active-note dict. -/
def hasKey (d : List (Int × Int)) (k : Int) : Prop := k ∈ d.map Prod.fst

theorem dictInsert_cons_eq (k v v2 : Int) (rest : List (Int × Int)) :
    dictInsert ((k, v2) :: rest) k v = (k, v) :: rest := by
  simp [dictInsert]

theorem dictInsert_cons_ne {k2 k : Int} (h : ¬ k2 = k) (v v2 : Int)
    (rest : List (Int × Int)) :
    dictInsert ((k2, v2) :: rest) k v = (k2, v2) :: dictInsert rest k v := by
  simp [dictInsert, h]

theorem dictPop_cons_eq (k v2 : Int) (rest : List (Int × Int)) :
    dictPop ((k, v2) :: rest) k = rest := by
  simp [dictPop]

theorem dictPop_cons_ne {k2 k : Int} (h : ¬ k2 = k) (v2 : Int)
    (rest : List (Int × Int)) :
    dictPop ((k2, v2) :: rest) k = (k2, v2) :: dictPop rest k := by
  simp [dictPop, h]

theorem hasKey_dictInsert : ∀ (d : List (Int × Int)) (k v x : Int),
    hasKey (dictInsert d k v) x ↔ hasKey d x ∨ x = k := by
  intro d k v x
  induction d with
  | nil => simp [hasKey, dictInsert]
  | cons kv rest ih =>
      obtain ⟨k2, v2⟩ := kv
      by_cases h : k2 = k
      · subst h
        rw [dictInsert_cons_eq]
        simp only [hasKey, List.map_cons, List.mem_cons]
        tauto
      · rw [dictInsert_cons_ne h]
        simp only [hasKey, List.map_cons, List.mem_cons] at ih ⊢
        tauto

theorem hasKey_dictPop_ne : ∀ (d : List (Int × Int)) (k x : Int), x ≠ k →
    (hasKey (dictPop d k) x ↔ hasKey d x) := by
  intro d k x hx
  induction d with
  | nil => simp [hasKey, dictPop]
  | cons kv rest ih =>
      obtain ⟨k2, v2⟩ := kv
      by_cases h : k2 = k
      · subst h
        rw [dictPop_cons_eq]
        simp only [hasKey, List.map_cons, List.mem_cons]
        have : ¬ x = k2 := hx
        tauto
      · rw [dictPop_cons_ne h]
        simp only [hasKey, List.map_cons, List.mem_cons] at ih ⊢
        tauto

theorem hasKey_dictPop_sub : ∀ (d : List (Int × Int)) (k x : Int),
    hasKey (dictPop d k) x → hasKey d x := by
  intro d k x
  induction d with
  | nil => simp [hasKey, dictPop]
  | cons kv rest ih =>
      obtain ⟨k2, v2⟩ := kv
      by_cases h : k2 = k
      · subst h
        rw [dictPop_cons_eq]
        simp only [hasKey, List.map_cons, List.mem_cons]
        tauto
      · rw [dictPop_cons_ne h]
        simp only [hasKey, List.map_cons, List.mem_cons] at ih ⊢
        tauto

theorem nodup_keys_dictInsert : ∀ (d : List (Int × Int)) (k v : Int),
    (d.map Prod.fst).Nodup → ((dictInsert d k v).map Prod.fst).Nodup := by
  intro d k v
  induction d with
  | nil => intro _; simp [dictInsert]
  | cons kv rest ih =>
      obtain ⟨k2, v2⟩ := kv
      intro h
      rw [List.map_cons] at h
      rcases List.nodup_cons.mp h with ⟨h1, h2⟩
      by_cases hk : k2 = k
      · subst hk
        rw [dictInsert_cons_eq, List.map_cons]
        exact List.nodup_cons.mpr ⟨h1, h2⟩
      · rw [dictInsert_cons_ne hk, List.map_cons]
        refine List.nodup_cons.mpr ⟨?_, ih h2⟩
        intro hmem
        rcases (hasKey_dictInsert rest k v k2).mp hmem with hm | hm
        · exact h1 hm
        · exact hk hm

theorem nodup_keys_dictPop : ∀ (d : List (Int × Int)) (k : Int),
    (d.map Prod.fst).Nodup → ((dictPop d k).map Prod.fst).Nodup := by
  intro d k
  induction d with
  | nil => intro _; simp [dictPop]
  | cons kv rest ih =>
      obtain ⟨k2, v2⟩ := kv
      intro h
      rw [List.map_cons] at h
      rcases List.nodup_cons.mp h with ⟨h1, h2⟩
      by_cases hk : k2 = k
      · subst hk
        rw [dictPop_cons_eq]
        exact h2
      · rw [dictPop_cons_ne hk, List.map_cons]
        exact List.nodup_cons.mpr ⟨fun hmem => h1 (hasKey_dictPop_sub rest k k2 hmem), ih h2⟩

theorem not_hasKey_dictPop_self : ∀ (d : List (Int × Int)) (k : Int),
    (d.map Prod.fst).Nodup → ¬ hasKey (dictPop d k) k := by
  intro d k
  induction d with
  | nil => intro _; simp [hasKey, dictPop]
  | cons kv rest ih =>
      obtain ⟨k2, v2⟩ := kv
      intro h
      rw [List.map_cons] at h
      rcases List.nodup_cons.mp h with ⟨h1, h2⟩
      by_cases hk : k2 = k
      · subst hk
        rw [dictPop_cons_eq]
        exact h1
      · rw [dictPop_cons_ne hk]
        simp only [hasKey, List.map_cons, List.mem_cons]
        rintro (hm | hm)
        · exact hk hm.symm
        · exact ih h2 hm

theorem nodup_keys_applyEvent (d : List (Int × Int)) (e : Int × Msg)
    (h : (d.map Prod.fst).Nodup) : ((applyEvent d e).map Prod.fst).Nodup := by
  cases he : e.2.type
  · simp only [applyEvent, he]
    split
    · exact nodup_keys_dictInsert d _ _ h
    · exact nodup_keys_dictPop d _ h
  · simp only [applyEvent, he]
    exact nodup_keys_dictPop d _ h
  · simpa only [applyEvent, he] using h

theorem nodup_keys_applyAll : ∀ (evs : List (Int × Msg)) (d : List (Int × Int)),
    (d.map Prod.fst).Nodup → ((applyAll d evs).map Prod.fst).Nodup := by
  intro evs
  induction evs with
  | nil => intro d h; exact h
  | cons e rest ih =>
      intro d h
      exact ih _ (nodup_keys_applyEvent d e h)

theorem hasKey_applyEvent_untouched {d : List (Int × Int)} {e : Int × Msg} {p : Int}
    (h : e.2.note = p → e.2.type = .other) :
    hasKey (applyEvent d e) p ↔ hasKey d p := by
  by_cases hn : e.2.note = p
  · simp [applyEvent, h hn]
  · have hns : p ≠ e.2.note := fun hh => hn hh.symm
    cases he : e.2.type
    · simp only [applyEvent, he]
      split
      · rw [hasKey_dictInsert]
        constructor
        · rintro (hm | hm)
          · exact hm
          · exact absurd hm hns
        · exact Or.inl
      · exact hasKey_dictPop_ne d _ p hns
    · simp only [applyEvent, he]
      exact hasKey_dictPop_ne d _ p hns
    · simp [applyEvent, he]

theorem hasKey_applyAll_untouched : ∀ (evs : List (Int × Msg)) (d : List (Int × Int)) (p : Int),
    (∀ e ∈ evs, e.2.note = p → e.2.type = .other) →
    (hasKey (applyAll d evs) p ↔ hasKey d p) := by
  intro evs
  induction evs with
  | nil => intro d p _; exact Iff.rfl
  | cons e rest ih =>
      intro d p h
      have h2 := ih (applyEvent d e) p (fun x hx => h x (List.mem_cons_of_mem _ hx))
      exact h2.trans (hasKey_applyEvent_untouched (h e (by simp)))

theorem foldl_max_mem : ∀ (l : List (Int × Int)) (a : Int),
    l.foldl (fun m q => max m q.1) a ∈ a :: l.map Prod.fst := by
  intro l
  induction l with
  | nil => intro a; simp
  | cons x rest ih =>
      intro a
      have hrec := ih (max a x.1)
      simp only [List.foldl_cons, List.map_cons, List.mem_cons] at hrec ⊢
      rcases hrec with h | h
      · rcases max_choice a x.1 with hm | hm
        · exact Or.inl (h.trans hm)
        · exact Or.inr (Or.inl (h.trans hm))
      · exact Or.inr (Or.inr h)

theorem maxKeys_mem : ∀ {d : List (Int × Int)} {m : Int}, maxKeys d = some m → hasKey d m := by
  intro d m h
  cases d with
  | nil => simp [maxKeys] at h
  | cons kv rest =>
      simp only [maxKeys, Option.some.injEq] at h
      subst h
      simpa [hasKey] using foldl_max_mem rest kv.1

/-- Claim C10: a note whose half-open sounding interval [on_time, off_time)
contains no multiple of step_size contributes no token: its note_on and
note_off are consumed in the same per-step batch, so its pitch never appears
in the grid (given that no other on/off message of the track carries that
pitch). -/
theorem short_note_dropped (A B C : List Msg) (p v vo d1 d2 tpb sub : Int)
    (_hv : 0 < v)
    (hd : ∀ m ∈ A ++ ⟨MsgType.note_on, p, v, d1⟩ ::
        (B ++ ⟨MsgType.note_off, p, vo, d2⟩ :: C), 0 ≤ m.time)
    (hA : ∀ m ∈ A, m.note = p → m.type = .other)
    (_hB : ∀ m ∈ B, m.note = p → m.type = .other)
    (hC : ∀ m ∈ C, m.note = p → m.type = .other)
    (hsub : 0 < sub) (hle : sub ≤ tpb)
    (_hlt : sumTimes A + d1 < sumTimes A + d1 + sumTimes B + d2)
    (hgap : ∀ k : Nat, ¬(sumTimes A + d1 ≤ (k : Int) * tpb.fdiv sub ∧
        (k : Int) * tpb.fdiv sub < sumTimes A + d1 + sumTimes B + d2)) :
    ∃ toks, extract_tokens_with_granularity
        (A ++ ⟨MsgType.note_on, p, v, d1⟩ ::
          (B ++ ⟨MsgType.note_off, p, vo, d2⟩ :: C)) tpb sub = .ok toks ∧
      ∀ x ∈ toks, x ≠ some p := by
  have hstep : 0 < tpb.fdiv sub := fdiv_pos_of_le hsub hle
  have hd0 : ∀ e ∈ buildEvents 0 (A ++ ⟨MsgType.note_on, p, v, d1⟩ ::
      (B ++ ⟨MsgType.note_off, p, vo, d2⟩ :: C)), 0 ≤ e.1 :=
    buildEvents_times_lb _ 0 hd
  rw [extract_eq_map _ tpb sub hsub hstep hd0]
  refine ⟨_, rfl, ?_⟩
  intro x hx hxp
  subst hxp
  rcases List.mem_map.mp hx with ⟨i, _, hfi⟩
  have hkey := maxKeys_mem hfi
  have hdA : ∀ m ∈ A, 0 ≤ m.time := fun m hm => hd m (List.mem_append_left _ hm)
  have hdB : ∀ m ∈ B, 0 ≤ m.time := fun m hm => hd m
    (List.mem_append_right _ (List.mem_cons_of_mem _ (List.mem_append_left _ hm)))
  have hd1 : 0 ≤ d1 := by
    have := hd ⟨MsgType.note_on, p, v, d1⟩
      (List.mem_append_right _ (List.mem_cons_self _ _))
    simpa using this
  have hd2 : 0 ≤ d2 := by
    have := hd ⟨MsgType.note_off, p, vo, d2⟩
      (List.mem_append_right _ (List.mem_cons_of_mem _
        (List.mem_append_right _ (List.mem_cons_self _ _))))
    simpa using this
  have hsB : 0 ≤ sumTimes B := sumTimes_nonneg hdB
  have hev : buildEvents 0 (A ++ ⟨MsgType.note_on, p, v, d1⟩ ::
      (B ++ ⟨MsgType.note_off, p, vo, d2⟩ :: C))
      = buildEvents 0 A
        ++ (sumTimes A + d1, ⟨MsgType.note_on, p, v, d1⟩)
          :: (buildEvents (sumTimes A + d1) B
            ++ (sumTimes A + d1 + sumTimes B + d2, ⟨MsgType.note_off, p, vo, d2⟩)
              :: buildEvents (sumTimes A + d1 + sumTimes B + d2) C) := by
    simp only [buildEvents_append, buildEvents, zero_add]
  rw [hev] at hkey
  by_cases hcase : tpb.fdiv sub * (i : Int) < sumTimes A + d1
  · -- sample before the note started: the takeWhile stops at the note_on
    rw [takeWhile_append_stop _ _ _ _ (by
      simp only [decide_eq_true_eq]
      exact not_le.mpr hcase)] at hkey
    have hclean : ∀ e ∈ (buildEvents 0 A).takeWhile
        (fun e : Int × Msg => decide (e.1 ≤ tpb.fdiv sub * (i : Int))),
        e.2.note = p → e.2.type = .other := by
      intro e he hep
      exact hA e.2 (buildEvents_mem_msg A 0 e ((List.takeWhile_sublist _).subset he)) hep
    rw [hasKey_applyAll_untouched _ _ _ hclean] at hkey
    simp [hasKey] at hkey
  · -- sample at or after the note_off: on and off are both consumed
    push_neg at hcase
    have hoff : sumTimes A + d1 + sumTimes B + d2 ≤ tpb.fdiv sub * (i : Int) := by
      have h3 := hgap i
      rw [show (i : Int) * tpb.fdiv sub = tpb.fdiv sub * (i : Int) from Int.mul_comm _ _] at h3
      push_neg at h3
      exact h3 hcase
    have hregroup : buildEvents 0 A
        ++ (sumTimes A + d1, ⟨MsgType.note_on, p, v, d1⟩)
          :: (buildEvents (sumTimes A + d1) B
            ++ (sumTimes A + d1 + sumTimes B + d2, ⟨MsgType.note_off, p, vo, d2⟩)
              :: buildEvents (sumTimes A + d1 + sumTimes B + d2) C)
        = (buildEvents 0 A
            ++ (sumTimes A + d1, ⟨MsgType.note_on, p, v, d1⟩)
              :: (buildEvents (sumTimes A + d1) B
                ++ [(sumTimes A + d1 + sumTimes B + d2, ⟨MsgType.note_off, p, vo, d2⟩)]))
          ++ buildEvents (sumTimes A + d1 + sumTimes B + d2) C := by
      simp
    rw [hregroup] at hkey
    have hall : ∀ e ∈ buildEvents 0 A
        ++ (sumTimes A + d1, ⟨MsgType.note_on, p, v, d1⟩)
          :: (buildEvents (sumTimes A + d1) B
            ++ [(sumTimes A + d1 + sumTimes B + d2, ⟨MsgType.note_off, p, vo, d2⟩)]),
        (fun e : Int × Msg => decide (e.1 ≤ tpb.fdiv sub * (i : Int))) e = true := by
      intro e he
      simp only [decide_eq_true_eq]
      rcases List.mem_append.mp he with hm | hm
      · have := buildEvents_times_ub A 0 hdA e hm
        omega
      · rcases List.mem_cons.mp hm with rfl | hm2
        · simp only []
          omega
        · rcases List.mem_append.mp hm2 with hm3 | hm3
          · have := buildEvents_times_ub B (sumTimes A + d1) hdB e hm3
            omega
          · rcases List.mem_singleton.mp hm3 with rfl
            simp only []
            omega
    rw [takeWhile_append_of_all hall, applyAll_append] at hkey
    have hsplit2 : buildEvents 0 A
        ++ (sumTimes A + d1, ⟨MsgType.note_on, p, v, d1⟩)
          :: (buildEvents (sumTimes A + d1) B
            ++ [(sumTimes A + d1 + sumTimes B + d2, ⟨MsgType.note_off, p, vo, d2⟩)])
        = ((buildEvents 0 A ++ [(sumTimes A + d1, ⟨MsgType.note_on, p, v, d1⟩)])
            ++ buildEvents (sumTimes A + d1) B)
          ++ [(sumTimes A + d1 + sumTimes B + d2, ⟨MsgType.note_off, p, vo, d2⟩)] := by
      simp
    rw [hsplit2, applyAll_append] at hkey
    have hpop : applyAll (applyAll []
        ((buildEvents 0 A ++ [(sumTimes A + d1, ⟨MsgType.note_on, p, v, d1⟩)])
          ++ buildEvents (sumTimes A + d1) B))
        [(sumTimes A + d1 + sumTimes B + d2, ⟨MsgType.note_off, p, vo, d2⟩)]
        = dictPop (applyAll []
            ((buildEvents 0 A ++ [(sumTimes A + d1, ⟨MsgType.note_on, p, v, d1⟩)])
              ++ buildEvents (sumTimes A + d1) B)) p := by
      simp [applyAll, applyEvent]
    rw [hpop] at hkey
    have hcleanC : ∀ e ∈ (buildEvents (sumTimes A + d1 + sumTimes B + d2) C).takeWhile
        (fun e : Int × Msg => decide (e.1 ≤ tpb.fdiv sub * (i : Int))),
        e.2.note = p → e.2.type = .other := by
      intro e he hep
      exact hC e.2 (buildEvents_mem_msg C _ e ((List.takeWhile_sublist _).subset he)) hep
    rw [hasKey_applyAll_untouched _ _ _ hcleanC] at hkey
    exact not_hasKey_dictPop_self _ p (nodup_keys_applyAll _ [] (by simp)) hkey

/-- Claim C10, witness: the note [10, 20) at 480/6 (step 80) encloses no
sample multiple and its pitch appears in no token. -/
theorem short_note_dropped_witness :
    ∃ toks, extract_tokens_with_granularity
        ([] ++ ⟨MsgType.note_on, 60, 64, 10⟩ ::
          ([] ++ ⟨MsgType.note_off, 60, 0, 10⟩ :: [])) 480 6 = .ok toks ∧
      ∀ x ∈ toks, x ≠ some 60 :=
  short_note_dropped [] [] [] 60 64 0 10 10 480 6 (by decide) (by decide)
    (by decide) (by decide) (by decide) (by decide) (by decide) (by decide)
    (by
      intro k
      have hstep : (480 : Int).fdiv 6 = 80 := by decide
      rw [hstep]
      simp only [sumTimes, List.map_nil, List.sum_nil]
      omega)

end JazzMidi
